import Mathlib

/-!
Shallow embedding of the `object_pool` crate (`src/lib.rs`): a fixed-capacity
slot pool whose free slots form an intrusive doubly linked list, ordered by
index, threaded through the slot array itself.

Modelling conventions:
* `usize` is modelled as `Nat`; `Vec<u8>` payloads as `List Nat`.
* Mutation is modelled by explicit state passing: each mutating method returns
  the new `Pool` together with its `Option<usize>` result.
* A panicking execution (`Vec` indexing through `.expect`, or the explicit
  panic in `insert_on_free_list`) is modelled as the result `none` of an
  `Option`-valued function; a `some` result is a normal return.
* The unbounded scan loop in `insert_on_free_list` is modelled with fuel
  `entries.length + 1`: the loop state is a single index below
  `entries.length`, so a run of more than `entries.length` steps revisits an
  index and, being deterministic, never terminates.  Hence fuel exhaustion
  (`none`) coincides exactly with divergence of the source loop.
-/

/-- Payload wrapper, `FilledEntry { inner: Vec<u8> }` in the source. -/
structure FilledEntry where
  inner : List Nat
deriving DecidableEq

/-- One slot: `PoolEntry::Data(FilledEntry)` or `PoolEntry::Empty(EmptyEntry)`.
The two fields of `EmptyEntry` (`prev`, `next`) are inlined into the `Empty`
constructor. -/
inductive PoolEntry where
  | Data (data : FilledEntry)
  | Empty (prev next : Option Nat)
deriving DecidableEq

/-- The pool: a vector of slots plus the head of the free list. -/
structure Pool where
  entries : List PoolEntry
  first_free : Option Nat
deriving DecidableEq

/-- `Pool::new(size)` (lines 19-33): every slot starts `Empty`, linked in
ascending order.  Mirrors the source exactly, including its behaviour at
size 0 and 1: `first_free` is unconditionally `Some(0)`, and the `idx == 0`
branch is tested before the `idx == size - 1` one. -/
def Pool.new (size : Nat) : Pool where
  entries := (List.range size).map fun idx =>
    if idx = 0 then PoolEntry.Empty none (some (idx + 1))
    else if idx = size - 1 then PoolEntry.Empty (some (idx - 1)) none
    else PoolEntry.Empty (some (idx - 1)) (some (idx + 1))
  first_free := some 0

/-- `Pool::entry` (lines 41-43): read a slot, `none` when out of range. -/
def Pool.entry (p : Pool) (idx : Nat) : Option PoolEntry :=
  p.entries[idx]?

/-- Lines 64-70 of `Pool::set`: rewrite the prev neighbour's `next` field to
`next`.  A prev index that is out of bounds hits
`.expect("Prev should always be valid.")`, i.e. panics: modelled as `none`.
A prev slot holding `Data` is silently skipped (the `if let` pattern fails). -/
def stepPrev (entries : List PoolEntry) (prev next : Option Nat) :
    Option (List PoolEntry) :=
  match prev with
  | none => some entries
  | some prev_id =>
    if prev_id < entries.length then
      match entries[prev_id]? with
      | some (PoolEntry.Empty a _) =>
          some (entries.set prev_id (PoolEntry.Empty a next))
      | _ => some entries
    else none

/-- Lines 71-77 of `Pool::set`: rewrite the next neighbour's `prev` field to
`prev`; panics (`none`) when the next index is out of bounds. -/
def stepNext (entries : List PoolEntry) (prev next : Option Nat) :
    Option (List PoolEntry) :=
  match next with
  | none => some entries
  | some next_id =>
    if next_id < entries.length then
      match entries[next_id]? with
      | some (PoolEntry.Empty _ b) =>
          some (entries.set next_id (PoolEntry.Empty prev b))
      | _ => some entries
    else none

/-- `Pool::set` (lines 46-82): fill a slot, unlinking it from the free list
when it was `Empty`.  An overall `none` models a panic in the source. -/
def Pool.set (p : Pool) (idx : Nat) (data : FilledEntry) :
    Option (Pool × Option Nat) :=
  if p.entries.length ≤ idx then some (p, none)
  else
    match p.entries[idx]? with
    | some (PoolEntry.Data _) =>
        some ({ p with entries := p.entries.set idx (PoolEntry.Data data) },
              some idx)
    | some (PoolEntry.Empty prev next) =>
        let ff := if some idx = p.first_free then next else p.first_free
        match stepPrev p.entries prev next with
        | none => none
        | some e1 =>
          match stepNext e1 prev next with
          | none => none
          | some e2 =>
              some ({ entries := e2.set idx (PoolEntry.Data data),
                      first_free := ff }, some idx)
    | none => none

/-- The scan loop of `insert_on_free_list` (lines 130-142): starting from
`current`, follow `next` pointers while the successor index is still
`≤ insert_index`; stop (keeping `current`) as soon as the successor exceeds
`insert_index`, is absent, or the current slot is not `Empty`. -/
def findInsertIndex (entries : List PoolEntry) (insert_index : Nat) :
    Nat → Nat → Option Nat
  | 0, _ => none
  | fuel + 1, current =>
    match entries[current]? with
    | some (PoolEntry.Empty _ (some n)) =>
        if insert_index < n then some current
        else findInsertIndex entries insert_index fuel n
    | _ => some current

/-- `Pool::insert_on_free_list` (lines 106-156): put `insert_index` back on
the free list.  `none` models either the source's final panic
(`"Should never happen"`, reached when the slot the scan stopped at is not
`Empty`) or a diverging scan loop.  Note that in the splice case the old
successor's `prev` field is left untouched by the source. -/
def Pool.insert_on_free_list (p : Pool) (insert_index : Nat) : Option Pool :=
  match p.first_free with
  | none =>
      some { entries := p.entries.set insert_index (PoolEntry.Empty none none),
             first_free := some insert_index }
  | some first_free_index =>
    if insert_index = first_free_index then some p
    else if insert_index < first_free_index then
      let e1 :=
        match p.entries[first_free_index]? with
        | some (PoolEntry.Empty _ b) =>
            p.entries.set first_free_index (PoolEntry.Empty (some insert_index) b)
        | _ => p.entries
      some { entries := e1.set insert_index
                (PoolEntry.Empty none (some first_free_index)),
             first_free := some insert_index }
    else
      match findInsertIndex p.entries insert_index (p.entries.length + 1)
          first_free_index with
      | none => none
      | some cur =>
        match p.entries[cur]? with
        | some (PoolEntry.Empty cpv cnx) =>
            some { entries := (p.entries.set cur
                      (PoolEntry.Empty cpv (some insert_index))).set
                      insert_index (PoolEntry.Empty (some cur) cnx),
                   first_free := p.first_free }
        | _ => none

/-- `Pool::free` (lines 85-98): release a slot; out of range returns
`(p, none)`, an already-`Empty` slot is a no-op. -/
def Pool.free (p : Pool) (idx : Nat) : Option (Pool × Option Nat) :=
  if p.entries.length ≤ idx then some (p, none)
  else
    match p.entries[idx]? with
    | some (PoolEntry.Empty _ _) => some (p, some idx)
    | some (PoolEntry.Data _) =>
        match p.insert_on_free_list idx with
        | none => none
        | some p' => some (p', some idx)
    | none => none

/-- One step of `PoolFreeIterator::next` (lines 176-194): from iterator state
`ci`, either stop (`none`) or yield an index and the next state.  The source
stops when the current index is absent, when the slot there is not `Empty`,
and (the self-loop guard) when the slot's `next` equals the current index,
in which case nothing further is yielded. -/
def Pool.iterStep (p : Pool) (ci : Option Nat) : Option (Nat × Option Nat) :=
  match ci with
  | none => none
  | some current_index =>
    match p.entry current_index with
    | some (PoolEntry.Empty _ nx) =>
        if (some current_index : Option Nat) = nx then none
        else some (current_index, nx)
    | _ => none

/-- Unfold the iterator at most `fuel` times, collecting the yielded
indices. -/
def Pool.freeList (p : Pool) : Nat → Option Nat → List Nat
  | 0, _ => []
  | fuel + 1, ci =>
    match p.iterStep ci with
    | none => []
    | some (i, ci') => i :: p.freeList fuel ci'

/-- `Pool::free_indexes` collected into a list.  A terminating run of the
source iterator yields at most `entries.length` items (its state is one
optional index, so a longer run revisits a state and diverges), hence fuel
`entries.length + 1` reproduces every terminating enumeration in full. -/
def Pool.free_indexes (p : Pool) : List Nat :=
  p.freeList (p.entries.length + 1) p.first_free

/-- `true` when the iterator, started in state `ci`, stops within `k`
steps. -/
def Pool.haltsInB (p : Pool) : Option Nat → Nat → Bool
  | ci, 0 => (p.iterStep ci).isNone
  | ci, k + 1 =>
    match p.iterStep ci with
    | none => true
    | some (_, ci') => p.haltsInB ci' k

/-- The free-slot iterator of `p`, started from `first_free`, eventually
stops. -/
def Pool.Halts (p : Pool) : Prop :=
  ∃ k, p.haltsInB p.first_free k = true

/-- Whether slot `i` exists and is `Empty` (i.e. free). -/
def Pool.isFreeIdx (p : Pool) (i : Nat) : Bool :=
  match p.entries[i]? with
  | some (PoolEntry.Empty _ _) => true
  | _ => false

/-- Default payload used in the concrete runs below (the repo's tests use
`FilledEntry { inner: Vec::new() }` throughout). -/
def d0 : FilledEntry := ⟨[]⟩

/-- Chain a `set` call with payload `d0` onto an optional pool state,
propagating a modelled panic. -/
def runSet (p : Option Pool) (idx : Nat) : Option Pool :=
  p.bind fun q => (q.set idx d0).map Prod.fst

/-- Chain a `free` call onto an optional pool state, propagating a modelled
panic. -/
def runFree (p : Option Pool) (idx : Nat) : Option Pool :=
  p.bind fun q => (q.free idx).map Prod.fst

/-- `Pool::new(4)`; `set(1)`; `free(1)`: releases slot 1 back into the middle
of the free list, splicing it between slots 0 and 2. -/
def runSplice : Option Pool :=
  runFree (runSet (some (Pool.new 4)) 1) 1

/-- `runSplice` followed by `set(2)`: fills slot 2, whose stale `prev` still
points at slot 0. -/
def runLostSlot : Option Pool :=
  runSet runSplice 2

/-- `runLostSlot` followed by `set(0)`: fills the head slot, promoting its
(corrupted) `next` to `first_free`. -/
def runBadHead : Option Pool :=
  runSet runLostSlot 0

/-- `runLostSlot`; `set(1)`; `free(2)`: drives the pool into the
`Should never happen` panic branch of `insert_on_free_list`. -/
def runPanic : Option Pool :=
  runFree (runSet runLostSlot 1) 2

/-- A corrupted pool whose two free slots point at each other:
`0.next = Some 1`, `1.next = Some 0`. -/
def poolTwoCycle : Pool :=
  { entries := [PoolEntry.Empty none (some 1), PoolEntry.Empty none (some 0)],
    first_free := some 0 }

/-- A corrupted pool whose single free slot points at itself. -/
def poolSelfLoop : Pool :=
  { entries := [PoolEntry.Empty none (some 0)], first_free := some 0 }

/-- The pool `Pool::new(2)` after `set(0, ⟨[1]⟩)` (used as a concrete
witness state). -/
def p1c : Pool :=
  { entries := [PoolEntry.Data ⟨[1]⟩, PoolEntry.Empty none none],
    first_free := some 1 }

/-- Well-formedness of one slot relative to its position: an `Empty` slot's
`prev` is smaller and its `next` larger than its own index. -/
def entryOK (i : Nat) : PoolEntry → Prop
  | PoolEntry.Data _ => True
  | PoolEntry.Empty pv nx =>
      (∀ j, pv = some j → j < i) ∧ (∀ j, nx = some j → i < j)

/-- Every slot of the array satisfies `entryOK`. -/
def EntriesOK (l : List PoolEntry) : Prop :=
  ∀ i e, l[i]? = some e → entryOK i e

/-- The pool's pointer-locality invariant: every free slot points backward
with `prev` and forward with `next`. -/
def Pool.INC (p : Pool) : Prop :=
  EntriesOK p.entries

/-- States reachable from some `Pool::new(size)` by non-panicking `set` and
`free` calls (a panicking call aborts the program, so it produces no
successor state). -/
inductive Reachable : Pool → Prop where
  | new (size : Nat) : Reachable (Pool.new size)
  | set {p : Pool} {idx : Nat} {d : FilledEntry} {p' : Pool} {r : Option Nat} :
      Reachable p → Pool.set p idx d = some (p', r) → Reachable p'
  | free {p : Pool} {idx : Nat} {p' : Pool} {r : Option Nat} :
      Reachable p → Pool.free p idx = some (p', r) → Reachable p'

/-! Sanity checks: the model reproduces every test of the repository's own
test suite (`test_get_empty`, `test_free_iterator`, `test_insert`,
`test_insert2`, `test_free`, `test_free2`). -/

example : (Pool.new 12).first_free = some 0 := by decide

example : (Pool.new 12).free_indexes = List.range 12 := by decide

example :
    (runSet (runSet (runSet (runSet (some (Pool.new 10)) 0) 2) 4) 6).map
      Pool.free_indexes = some [1, 3, 5, 7, 8, 9] := by decide

example : (runSet (some (Pool.new 4)) 0).map Pool.first_free =
    some (some 1) := by decide

example :
    (runFree (runSet (runSet (some (Pool.new 4)) 0) 2) 0).map
      (fun p => (p.free_indexes, p.first_free)) =
    some ([0, 1, 3], some 0) := by decide

example :
    (runFree (runFree (runSet (runSet (runSet (runSet
        (some (Pool.new 10)) 0) 2) 4) 6) 0) 4).map
      (fun p => (p.free_indexes, p.first_free)) =
    some ([0, 1, 3, 4, 5, 7, 8, 9], some 0) := by decide

/-! ## Claim theorems -/

/-- C1 (code bug): public operations can panic.  `Pool::new(1)` builds slot 0
with `next = Some(1)`, out of bounds, so `set(0, …)` dies in
`.expect("Next should always be valid.")`; and after
`new(4); set(1); free(1); set(2); set(1)` the stale pointers left by the
splice drive `free(2)` into the `Should never happen` panic of
`insert_on_free_list`.  Both runs are modelled as the result `none`. -/
theorem set_and_free_can_panic :
    Pool.set (Pool.new 1) 0 d0 = none ∧ runPanic = none := by decide

/-- C2 (code bug): `new(0)` yields `head = Some 0` although there is no slot
at all (the claim demands `head = None`), and `new(1)` gives its single slot
`next = Some 1`, one past the end (the claim demands `next = None` for slot
`size - 1`). -/
theorem new_head_and_link_wrong_at_small_sizes :
    Pool.new 0 = { entries := [], first_free := some 0 } ∧
    Pool.new 1 = { entries := [PoolEntry.Empty none (some 1)],
                   first_free := some 0 } := by decide

/-- C3 (code bug): in the reachable state `new(4); set(1); free(1); set(2)`
the free slots are exactly 0, 1 and 3, yet free-slot enumeration yields only
`[0, 3]`: slot 1 was orphaned because the splice in `free(1)` never updated
slot 2's `prev`, so `set(2)` rewired slot 0's `next` past slot 1. -/
theorem enumeration_misses_a_free_slot :
    runLostSlot.map (fun p => (p.free_indexes, p.isFreeIdx 1)) =
      some ([0, 3], true) := by decide

/-- C4 (code bug): after `new(4); set(1); free(1)` splices slot 1 between
slots 0 and 2, slot 1's `next` is `Some 2` but slot 2's `prev` is still
`Some 0`, not `Some 1`: `insert_on_free_list` never updates the old
successor's `prev`. -/
theorem splice_leaves_stale_prev :
    runSplice.map (fun p => (p.entry 1, p.entry 2)) =
      some (some (PoolEntry.Empty (some 0) (some 2)),
            some (PoolEntry.Empty (some 0) (some 3))) := by decide

/-- C5 (code bug): `new(0)` has `head = Some 0` with no `Free` slot at all;
and in the reachable state `new(4); set(1); free(1); set(2); set(0)` the head
is `Some 3` although slot 1 is also `Free`, so the head is not the smallest
free index. -/
theorem head_invariant_violated :
    ((Pool.new 0).first_free = some 0 ∧ (Pool.new 0).entries = []) ∧
    runBadHead.map (fun p => (p.first_free, p.isFreeIdx 1, p.isFreeIdx 3)) =
      some (some 3, true, true) := by decide

/-- C6 (confirmed): `set` and `free` on an out-of-range index return the
"absent" result `none` and leave the pool completely unchanged. -/
theorem oob_set_and_free_are_noops (p : Pool) (idx : Nat) (d : FilledEntry)
    (h : p.entries.length ≤ idx) :
    p.set idx d = some (p, none) ∧ p.free idx = some (p, none) := by
  constructor
  · simp [Pool.set, h]
  · simp [Pool.free, h]

/-- C6 witness at a concrete input. -/
theorem oob_set_and_free_are_noops_witness :
    Pool.set (Pool.new 2) 5 d0 = some (Pool.new 2, none) ∧
    Pool.free (Pool.new 2) 5 = some (Pool.new 2, none) :=
  oob_set_and_free_are_noops (Pool.new 2) 5 d0 (by decide)

/-- C9 counterexample: the two-slot pool whose free slots point at each other
(`0.next = Some 1`, `1.next = Some 0`) makes the iterator run forever: the
guard only compares a slot's `next` with the current index, so a cycle of
length two is never detected. -/
theorem two_cycle_iterator_never_halts : ¬ poolTwoCycle.Halts := by
  rintro ⟨k, hk⟩
  have key : ∀ n, poolTwoCycle.haltsInB (some 0) n = false ∧
      poolTwoCycle.haltsInB (some 1) n = false := by
    intro n
    induction n with
    | zero => exact ⟨by decide, by decide⟩
    | succ n ih =>
      refine ⟨?_, ?_⟩
      · show poolTwoCycle.haltsInB (some 1) n = false
        exact ih.2
      · show poolTwoCycle.haltsInB (some 0) n = false
        exact ih.1
  rw [show poolTwoCycle.first_free = some 0 from rfl] at hk
  rw [(key k).1] at hk
  cases hk

/-- C9 (amended): the iterator does detect a slot whose `next` points back to
itself, halting at once and yielding nothing further; longer cycles are not
detected (see the two-cycle counterexample). -/
theorem self_loop_guard_halts (p : Pool) (i : Nat) (pv : Option Nat)
    (h : p.entry i = some (PoolEntry.Empty pv (some i))) :
    p.iterStep (some i) = none ∧ ∀ fuel, p.freeList fuel (some i) = [] := by
  have hstep : p.iterStep (some i) = none := by simp [Pool.iterStep, h]
  refine ⟨hstep, ?_⟩
  intro fuel
  cases fuel with
  | zero => rfl
  | succ n => simp [Pool.freeList, hstep]

/-- C9 witness at a concrete input: the one-slot self-loop pool. -/
theorem self_loop_guard_halts_witness :
    poolSelfLoop.iterStep (some 0) = none :=
  (self_loop_guard_halts poolSelfLoop 0 none (by decide)).1

/-- C10 (confirmed): the iterator stops immediately, without failing, when
the current index is out of range or names an `Occupied` slot; in particular
`free_indexes` on `Pool::new(0)` is empty (its `head = Some 0` points past
the empty slot array). -/
theorem iterator_stops_on_absent_or_occupied :
    (∀ (p : Pool) (i : Nat),
        (p.entry i = none ∨ ∃ d, p.entry i = some (PoolEntry.Data d)) →
        p.iterStep (some i) = none) ∧
    (Pool.new 0).free_indexes = [] := by
  constructor
  · intro p i h
    rcases h with h | ⟨d, h⟩ <;> simp [Pool.iterStep, h]
  · decide

/-- C10 witness at a concrete input. -/
theorem iterator_stops_on_absent_or_occupied_witness :
    (Pool.new 2).iterStep (some 5) = none :=
  iterator_stops_on_absent_or_occupied.1 (Pool.new 2) 5 (Or.inl (by decide))

/-! ## Helper lemmas for C8 -/

theorem stepPrev_length {l : List PoolEntry} {pv nx : Option Nat}
    {e1 : List PoolEntry} (h : stepPrev l pv nx = some e1) :
    e1.length = l.length := by
  cases pv with
  | none =>
    simp only [stepPrev] at h
    injection h with h
    subst h; rfl
  | some pid =>
    simp only [stepPrev] at h
    split at h
    · split at h
      · injection h with h; subst h; exact List.length_set ..
      · injection h with h; subst h; rfl
    · cases h

theorem stepNext_length {l : List PoolEntry} {pv nx : Option Nat}
    {e1 : List PoolEntry} (h : stepNext l pv nx = some e1) :
    e1.length = l.length := by
  cases nx with
  | none =>
    simp only [stepNext] at h
    injection h with h
    subst h; rfl
  | some nid =>
    simp only [stepNext] at h
    split at h
    · split at h
      · injection h with h; subst h; exact List.length_set ..
      · injection h with h; subst h; rfl
    · cases h

/-- A successful in-range `set` leaves `Data data` at `idx`, preserves the
array length, and returns `Some idx`. -/
theorem set_success_state {p : Pool} {idx : Nat} {data : FilledEntry}
    {p' : Pool} {r : Option Nat} (hlt : idx < p.entries.length)
    (h : Pool.set p idx data = some (p', r)) :
    p'.entries[idx]? = some (PoolEntry.Data data) ∧
    p'.entries.length = p.entries.length ∧ r = some idx := by
  simp only [Pool.set] at h
  split at h
  · omega
  · split at h
    · injection h with h
      injection h with h1 h2
      subst h1; subst h2
      exact ⟨List.getElem?_set_self hlt, List.length_set .., rfl⟩
    · split at h
      · cases h
      · rename_i e1 hprev
        split at h
        · cases h
        · rename_i e2 hnext
          injection h with h
          injection h with h1 h2
          subst h1; subst h2
          have hl2 : e2.length = p.entries.length := by
            rw [stepNext_length hnext, stepPrev_length hprev]
          refine ⟨?_, ?_, rfl⟩
          · exact List.getElem?_set_self (by omega)
          · rw [List.length_set, hl2]
    · cases h

/-- A successful `insert_on_free_list` on a `Data` slot either does nothing
at all (the `insert_index == first_free` early return) or leaves an `Empty`
slot at `insert_index` and preserves the array length. -/
theorem insert_success_state {p : Pool} {idx : Nat} {p' : Pool}
    (hlt : idx < p.entries.length)
    (h : p.insert_on_free_list idx = some p') :
    (p' = p ∧ p.first_free = some idx) ∨
    ((∃ pv nx, p'.entries[idx]? = some (PoolEntry.Empty pv nx)) ∧
      p'.entries.length = p.entries.length) := by
  simp only [Pool.insert_on_free_list] at h
  split at h
  · rename_i hff
    injection h with h
    subst h
    exact Or.inr ⟨⟨none, none, List.getElem?_set_self hlt⟩, List.length_set ..⟩
  · rename_i ffi hff
    split at h
    · rename_i heq
      injection h with h
      subst h
      exact Or.inl ⟨rfl, by rw [hff, heq]⟩
    · split at h
      · injection h with h
        subst h
        refine Or.inr ⟨⟨none, some ffi, ?_⟩, ?_⟩
        · apply List.getElem?_set_self
          split <;> simp [List.length_set, hlt]
        · split <;> simp [List.length_set]
      · split at h
        · cases h
        · rename_i cur hfind
          split at h
          · rename_i cpv cnx heq
            injection h with h
            subst h
            refine Or.inr ⟨⟨some cur, cnx, ?_⟩, ?_⟩
            · exact List.getElem?_set_self (by simp [List.length_set, hlt])
            · simp [List.length_set]
          · cases h

/-- C8 (confirmed): a second `free` of the same index is a no-op on the whole
pool state (it reproduces exactly the state and result of the first call),
and a second `set` of the same in-range index with a different payload
succeeds, overwrites only that slot's payload and leaves `first_free` and
every other slot (hence all free-list linkage) untouched. -/
theorem free_idempotent_and_set_overwrites :
    (∀ (p : Pool) (idx : Nat) (q : Pool × Option Nat),
        p.free idx = some q → q.1.free idx = some q) ∧
    (∀ (p : Pool) (idx : Nat) (d1 d2 : FilledEntry) (p1 : Pool)
        (r : Option Nat), idx < p.entries.length →
        p.set idx d1 = some (p1, r) →
        p1.set idx d2 =
          some ({ p1 with entries := p1.entries.set idx (PoolEntry.Data d2) },
                some idx)) := by
  constructor
  · intro p idx q h
    by_cases hle : p.entries.length ≤ idx
    · have h0 : p.free idx = some (p, none) := by simp [Pool.free, hle]
      rw [h0] at h
      injection h with h
      subst h
      exact h0
    · have hlt : idx < p.entries.length := by omega
      rcases hget : p.entries[idx]? with _ | e
      · rw [List.getElem?_eq_getElem hlt] at hget
        cases hget
      · cases e with
        | Empty pv nx =>
          have h0 : p.free idx = some (p, some idx) := by
            simp [Pool.free, hle, hget]
          rw [h0] at h
          injection h with h
          subst h
          exact h0
        | Data d =>
          rcases hins : p.insert_on_free_list idx with _ | p'
          · have h0 : p.free idx = none := by simp [Pool.free, hle, hget, hins]
            rw [h0] at h
            cases h
          · have h0 : p.free idx = some (p', some idx) := by
              simp [Pool.free, hle, hget, hins]
            rw [h0] at h
            injection h with h
            subst h
            rcases insert_success_state hlt hins with ⟨hpp, _⟩ | ⟨⟨pv, nx, hat⟩, hlen⟩
            · rw [hpp] at h0 ⊢
              exact h0
            · have hlt' : idx < p'.entries.length := by omega
              simp [Pool.free, Nat.not_le.mpr hlt', hat]
  · intro p idx d1 d2 p1 r hlt h
    obtain ⟨hat, hlen, _⟩ := set_success_state hlt h
    have hlt' : idx < p1.entries.length := by omega
    simp [Pool.set, Nat.not_le.mpr hlt', hat]

/-- C8 witness at concrete inputs: releasing slot 0 of `Pool::new(2)` twice,
and filling slot 0 twice with different payloads. -/
theorem free_idempotent_and_set_overwrites_witness :
    Pool.free (Pool.new 2) 0 = some (Pool.new 2, some 0) ∧
    Pool.set p1c 0 ⟨[2]⟩ =
      some ({ p1c with entries := p1c.entries.set 0 (PoolEntry.Data ⟨[2]⟩) },
            some 0) :=
  ⟨free_idempotent_and_set_overwrites.1 (Pool.new 2) 0 (Pool.new 2, some 0)
      (by decide),
   free_idempotent_and_set_overwrites.2 (Pool.new 2) 0 ⟨[1]⟩ ⟨[2]⟩ p1c
      (some 0) (by decide) (by decide)⟩

/-! ## Helper lemmas for C7: the pointer-locality invariant `Pool.INC` is
preserved by every successful operation, and it forces the enumeration to be
strictly increasing. -/

theorem entriesOK_set {l : List PoolEntry} {i : Nat} {e : PoolEntry}
    (hok : EntriesOK l) (he : entryOK i e) : EntriesOK (l.set i e) := by
  intro j e' hj
  rw [List.getElem?_set] at hj
  split at hj
  · rename_i hij
    split at hj
    · injection hj with hj
      subst hj
      rw [← hij]
      exact he
    · cases hj
  · exact hok j e' hj

theorem entriesOK_new (n : Nat) : EntriesOK (Pool.new n).entries := by
  intro i e hget
  simp only [Pool.new] at hget
  rw [List.getElem?_map] at hget
  by_cases hi : i < n
  · rw [List.getElem?_range hi] at hget
    simp only [Option.map_some'] at hget
    injection hget with hget
    subst hget
    by_cases h0 : i = 0
    · subst h0
      simp only [if_pos rfl, entryOK]
      refine ⟨fun j hj => (nomatch hj), fun j hj => ?_⟩
      injection hj with hj
      omega
    · rw [if_neg h0]
      by_cases hl : i = n - 1
      · rw [if_pos hl]
        refine ⟨fun j hj => ?_, fun j hj => (nomatch hj)⟩
        injection hj with hj
        omega
      · rw [if_neg hl]
        refine ⟨fun j hj => ?_, fun j hj => ?_⟩
        · injection hj with hj
          omega
        · injection hj with hj
          omega
  · rw [List.getElem?_eq_none (by simpa using Nat.le_of_not_lt hi)] at hget
    cases hget

theorem entriesOK_stepPrev {l : List PoolEntry} {pv nx : Option Nat}
    {idx : Nat} {e1 : List PoolEntry} (hok : EntriesOK l)
    (hpv : ∀ j, pv = some j → j < idx) (hnx : ∀ j, nx = some j → idx < j)
    (h : stepPrev l pv nx = some e1) : EntriesOK e1 := by
  cases pv with
  | none =>
    simp only [stepPrev] at h
    injection h with h
    subst h
    exact hok
  | some pid =>
    have hpid : pid < idx := hpv pid rfl
    simp only [stepPrev] at h
    split at h
    · split at h
      · rename_i a b heq
        injection h with h
        subst h
        apply entriesOK_set hok
        exact ⟨(hok pid _ heq).1, fun j hj => Nat.lt_trans hpid (hnx j hj)⟩
      · injection h with h
        subst h
        exact hok
    · cases h

theorem entriesOK_stepNext {l : List PoolEntry} {pv nx : Option Nat}
    {idx : Nat} {e1 : List PoolEntry} (hok : EntriesOK l)
    (hpv : ∀ j, pv = some j → j < idx) (hnx : ∀ j, nx = some j → idx < j)
    (h : stepNext l pv nx = some e1) : EntriesOK e1 := by
  cases nx with
  | none =>
    simp only [stepNext] at h
    injection h with h
    subst h
    exact hok
  | some nid =>
    have hnid : idx < nid := hnx nid rfl
    simp only [stepNext] at h
    split at h
    · split at h
      · rename_i a b heq
        injection h with h
        subst h
        apply entriesOK_set hok
        exact ⟨fun j hj => Nat.lt_trans (hpv j hj) hnid, (hok nid _ heq).2⟩
      · injection h with h
        subst h
        exact hok
    · cases h

theorem inc_set {p : Pool} {idx : Nat} {d : FilledEntry} {p' : Pool}
    {r : Option Nat} (hinc : p.INC) (h : Pool.set p idx d = some (p', r)) :
    p'.INC := by
  simp only [Pool.set] at h
  split at h
  · injection h with h
    injection h with h1 h2
    subst h1
    exact hinc
  · split at h
    · injection h with h
      injection h with h1 h2
      subst h1
      exact entriesOK_set hinc trivial
    · rename_i pv nx heq
      have hx := hinc idx _ heq
      split at h
      · cases h
      · rename_i e1 hprev
        split at h
        · cases h
        · rename_i e2 hnext
          injection h with h
          injection h with h1 h2
          subst h1
          have hok1 := entriesOK_stepPrev hinc hx.1 hx.2 hprev
          have hok2 := entriesOK_stepNext hok1 hx.1 hx.2 hnext
          exact entriesOK_set hok2 trivial
    · cases h

theorem findInsertIndex_le {l : List PoolEntry} {idx : Nat} :
    ∀ {fuel current cur : Nat},
      findInsertIndex l idx fuel current = some cur →
      current ≤ idx → cur ≤ idx := by
  intro fuel
  induction fuel with
  | zero =>
    intro current cur h
    cases h
  | succ n ih =>
    intro current cur h hle
    simp only [findInsertIndex] at h
    split at h
    · split at h
      · injection h with h
        subst h
        exact hle
      · rename_i a m heq hnm
        exact ih h (Nat.le_of_not_lt hnm)
    · injection h with h
      subst h
      exact hle

theorem findInsertIndex_break {l : List PoolEntry} {idx : Nat} :
    ∀ {fuel current cur m : Nat} {cpv : Option Nat},
      findInsertIndex l idx fuel current = some cur →
      l[cur]? = some (PoolEntry.Empty cpv (some m)) → idx < m := by
  intro fuel
  induction fuel with
  | zero =>
    intro current cur m cpv h
    cases h
  | succ n ih =>
    intro current cur m cpv h hget
    simp only [findInsertIndex] at h
    split at h
    · rename_i a k heq
      split at h
      · rename_i hik
        injection h with h
        subst h
        rw [heq] at hget
        injection hget with hget
        cases hget
        exact hik
      · exact ih h hget
    · rename_i hshape
      injection h with h
      subst h
      exact absurd hget (hshape cpv m)

theorem inc_insert {p : Pool} {idx : Nat} {p' : Pool} (hinc : p.INC)
    (hdata : ∃ d, p.entries[idx]? = some (PoolEntry.Data d))
    (h : p.insert_on_free_list idx = some p') : p'.INC := by
  obtain ⟨d, hd⟩ := hdata
  simp only [Pool.insert_on_free_list] at h
  split at h
  · injection h with h
    subst h
    exact entriesOK_set hinc
      ⟨fun j hj => (nomatch hj), fun j hj => (nomatch hj)⟩
  · rename_i ffi hff
    split at h
    · injection h with h
      subst h
      exact hinc
    · rename_i hne
      split at h
      · rename_i hlt'
        injection h with h
        subst h
        apply entriesOK_set ?_ ?_
        · split
          · rename_i a b heq
            apply entriesOK_set hinc
            refine ⟨fun j hj => ?_, (hinc ffi _ heq).2⟩
            injection hj with hj
            omega
          · exact hinc
        · refine ⟨fun j hj => (nomatch hj), fun j hj => ?_⟩
          injection hj with hj
          omega
      · rename_i hnlt
        have hfi : ffi < idx := by omega
        split at h
        · cases h
        · rename_i cur hfind
          split at h
          · rename_i cpv cnx heq
            injection h with h
            subst h
            have hcurle : cur ≤ idx := findInsertIndex_le hfind (Nat.le_of_lt hfi)
            have hcurne : cur ≠ idx := by
              intro e
              rw [e, hd] at heq
              cases heq
            have hcur : cur < idx := Nat.lt_of_le_of_ne hcurle hcurne
            apply entriesOK_set (entriesOK_set hinc ?_) ?_
            · refine ⟨(hinc cur _ heq).1, fun j hj => ?_⟩
              injection hj with hj
              omega
            · refine ⟨fun j hj => ?_, fun j hj => ?_⟩
              · injection hj with hj
                omega
              · subst hj
                exact findInsertIndex_break hfind heq
          · cases h

theorem inc_free {p : Pool} {idx : Nat} {p' : Pool} {r : Option Nat}
    (hinc : p.INC) (h : Pool.free p idx = some (p', r)) : p'.INC := by
  simp only [Pool.free] at h
  split at h
  · injection h with h
    injection h with h1 h2
    subst h1
    exact hinc
  · split at h
    · injection h with h
      injection h with h1 h2
      subst h1
      exact hinc
    · rename_i d hd
      split at h
      · cases h
      · rename_i p'' hins
        injection h with h
        injection h with h1 h2
        subst h1
        exact inc_insert hinc ⟨d, hd⟩ hins
    · cases h

/-- Every reachable pool satisfies the pointer-locality invariant. -/
theorem reachable_inc {p : Pool} (h : Reachable p) : p.INC := by
  induction h with
  | new n => exact entriesOK_new n
  | set hp hstep ih => exact inc_set ih hstep
  | free hp hstep ih => exact inc_free ih hstep

theorem iterStep_some_inv {p : Pool} {i y : Nat} {ci' : Option Nat}
    (h : p.iterStep (some i) = some (y, ci')) :
    y = i ∧ ∃ pv, p.entries[i]? = some (PoolEntry.Empty pv ci') := by
  simp only [Pool.iterStep, Pool.entry] at h
  split at h
  · rename_i pv nx heq
    split at h
    · cases h
    · injection h with h
      injection h with h1 h2
      subst h2
      exact ⟨h1.symm, pv, heq⟩
  · cases h

theorem freeList_from_none (p : Pool) (fuel : Nat) :
    p.freeList fuel none = [] := by
  cases fuel with
  | zero => rfl
  | succ n => simp [Pool.freeList, Pool.iterStep]

/-- Under the pointer-locality invariant, everything the iterator yields from
position `i` is at least `i`. -/
theorem freeList_lower_bound {p : Pool} (hinc : p.INC) :
    ∀ (fuel i x : Nat), x ∈ p.freeList fuel (some i) → i ≤ x := by
  intro fuel
  induction fuel with
  | zero =>
    intro i x hx
    simp [Pool.freeList] at hx
  | succ n ih =>
    intro i x hx
    rcases hstep : p.iterStep (some i) with _ | ⟨y, ci'⟩
    · simp only [Pool.freeList, hstep] at hx
      cases hx
    · simp only [Pool.freeList, hstep] at hx
      obtain ⟨rfl, pv, hentry⟩ := iterStep_some_inv hstep
      rcases List.mem_cons.mp hx with rfl | hx'
      · exact Nat.le_refl x
      · cases ci' with
        | none =>
          rw [freeList_from_none] at hx'
          cases hx'
        | some j =>
          have hij : y < j := (hinc y _ hentry).2 j rfl
          exact Nat.le_of_lt (Nat.lt_of_lt_of_le hij (ih j x hx'))

/-- Under the pointer-locality invariant, every unfolding of the iterator is
strictly increasing. -/
theorem freeList_chain {p : Pool} (hinc : p.INC) :
    ∀ (fuel : Nat) (ci : Option Nat),
      List.Chain' (· < ·) (p.freeList fuel ci) := by
  intro fuel
  induction fuel with
  | zero =>
    intro ci
    simp [Pool.freeList]
  | succ n ih =>
    intro ci
    rcases hstep : p.iterStep ci with _ | ⟨y, ci'⟩
    · simp [Pool.freeList, hstep]
    · rw [show p.freeList (n + 1) ci = y :: p.freeList n ci' by
        simp [Pool.freeList, hstep]]
      rw [List.chain'_cons']
      refine ⟨?_, ih ci'⟩
      intro z hz
      have hzmem := List.mem_of_mem_head? hz
      cases ci with
      | none => simp [Pool.iterStep] at hstep
      | some i =>
        obtain ⟨rfl, pv, hentry⟩ := iterStep_some_inv hstep
        cases ci' with
        | none =>
          rw [freeList_from_none] at hzmem
          cases hzmem
        | some j =>
          have hij : y < j := (hinc y _ hentry).2 j rfl
          exact Nat.lt_of_lt_of_le hij
            (freeList_lower_bound hinc n j z hzmem)

/-- C7 (confirmed): in every state reachable by non-panicking `set`/`free`
calls from any `Pool::new(size)`, following `next` pointers from `head`
yields a strictly increasing sequence of indices — and this holds for every
unfolding depth and every start position of the iterator, not only for the
full enumeration `free_indexes`. -/
theorem reachable_enumeration_ascending (p : Pool) (h : Reachable p) :
    List.Chain' (· < ·) p.free_indexes ∧
    ∀ (fuel : Nat) (ci : Option Nat),
      List.Chain' (· < ·) (p.freeList fuel ci) := by
  have hinc := reachable_inc h
  exact ⟨freeList_chain hinc _ _, fun fuel ci => freeList_chain hinc fuel ci⟩

/-- C7 witness at a concrete input. -/
theorem reachable_enumeration_ascending_witness :
    List.Chain' (· < ·) (Pool.new 3).free_indexes :=
  (reachable_enumeration_ascending (Pool.new 3) (Reachable.new 3)).1
